import Mathlib

/-!
Verification of the CMOD (Constrained Method of Optimal Directions) ADMM
solver in sporco/admm/cmod.py.  Matrices are embedded as Mathlib matrices
over the real numbers; the NumPy floating-point arrays are idealised as
exact real arithmetic.  Stateful methods of the CnstrMOD class are embedded
as explicit state-passing functions on a CnstrMOD structure.
-/

namespace Cmod

open Matrix
open scoped BigOperators

/-- Euclidean norm of column j of v.  Mirrors the per-column value of
np.sqrt(np.sum(v**2, 0)) computed in normalise (cmod.py line 301). -/
noncomputable def colNorm {n m : ℕ} (v : Matrix (Fin n) (Fin m) ℝ) (j : Fin m) : ℝ :=
  Real.sqrt (∑ i, v i j ^ 2)

/-- normalise (cmod.py lines 287-303): divide each column by its Euclidean
norm, where any norm equal to 0 is first replaced by 1
(the assignment vn[vn == 0] = 1.0 on line 302). -/
noncomputable def normalise {n m : ℕ} (v : Matrix (Fin n) (Fin m) ℝ) :
    Matrix (Fin n) (Fin m) ℝ :=
  Matrix.of fun i j => v i j / (if colNorm v j = 0 then 1 else colNorm v j)

/-- zeromean (cmod.py lines 269-283): v - np.mean(v, 0), subtracting each
column's mean from every entry of that column. -/
noncomputable def zeromean {n m : ℕ} (v : Matrix (Fin n) (Fin m) ℝ) :
    Matrix (Fin n) (Fin m) ℝ :=
  Matrix.of fun i j => v i j - (∑ k, v k j) / (n : ℝ)

/-- getPcn (cmod.py lines 247-265): the constraint-set projection function,
normalise composed with zeromean when the zero-mean flag is set, and
normalise alone otherwise. -/
noncomputable def getPcn {n m : ℕ} (zm : Bool) :
    Matrix (Fin n) (Fin m) ℝ → Matrix (Fin n) (Fin m) ℝ :=
  if zm then fun x => normalise (zeromean x) else normalise

/-- Frobenius norm, the default matrix norm of scipy.linalg.norm used in
obfn_dfd and obfn_cns. -/
noncomputable def frobNorm {n m : ℕ} (v : Matrix (Fin n) (Fin m) ℝ) : ℝ :=
  Real.sqrt (∑ i, ∑ j, v i j ^ 2)

lemma colNorm_nonneg {n m : ℕ} (v : Matrix (Fin n) (Fin m) ℝ) (j : Fin m) :
    0 ≤ colNorm v j :=
  Real.sqrt_nonneg _

lemma colNorm_eq_zero_iff {n m : ℕ} (v : Matrix (Fin n) (Fin m) ℝ) (j : Fin m) :
    colNorm v j = 0 ↔ ∀ i, v i j = 0 := by
  unfold colNorm
  rw [Real.sqrt_eq_zero (Finset.sum_nonneg fun i _ => sq_nonneg _)]
  rw [Finset.sum_eq_zero_iff_of_nonneg fun i _ => sq_nonneg (v i j)]
  constructor
  · intro h i
    exact pow_eq_zero_iff (two_ne_zero) |>.mp (h i (Finset.mem_univ i))
  · intro h i _
    rw [h i]
    ring

lemma normalise_apply {n m : ℕ} (v : Matrix (Fin n) (Fin m) ℝ) (i : Fin n) (j : Fin m) :
    normalise v i j = v i j / (if colNorm v j = 0 then 1 else colNorm v j) := rfl

/-- On a column of zero norm, normalise divides by the substituted value 1
and so leaves the (zero) column unchanged. -/
lemma normalise_apply_of_colNorm_zero {n m : ℕ} (v : Matrix (Fin n) (Fin m) ℝ)
    {j : Fin m} (h : colNorm v j = 0) (i : Fin n) :
    normalise v i j = v i j := by
  rw [normalise_apply, if_pos h, div_one]

/-- A column with a nonzero entry has nonzero (indeed positive) norm. -/
lemma colNorm_ne_zero_of_entry {n m : ℕ} (v : Matrix (Fin n) (Fin m) ℝ)
    {j : Fin m} (h : ∃ i, v i j ≠ 0) : colNorm v j ≠ 0 := by
  intro hc
  obtain ⟨i, hi⟩ := h
  exact hi ((colNorm_eq_zero_iff v j).mp hc i)

/-- Normalising a column of nonzero norm yields a column of norm exactly 1. -/
lemma colNorm_normalise {n m : ℕ} (v : Matrix (Fin n) (Fin m) ℝ)
    {j : Fin m} (h : colNorm v j ≠ 0) : colNorm (normalise v) j = 1 := by
  have ht : (0 : ℝ) ≤ ∑ i, v i j ^ 2 := Finset.sum_nonneg fun i _ => sq_nonneg _
  have hsq : colNorm v j ^ 2 = ∑ i, v i j ^ 2 := Real.sq_sqrt ht
  have htne : (∑ i, v i j ^ 2) ≠ 0 := by
    intro h0
    apply h
    unfold colNorm
    rw [h0, Real.sqrt_zero]
  unfold colNorm
  have hterm : ∀ i : Fin n, normalise v i j ^ 2 = v i j ^ 2 / (∑ k, v k j ^ 2) := by
    intro i
    rw [normalise_apply, if_neg h, div_pow, hsq]
  rw [Finset.sum_congr rfl fun i _ => hterm i, ← Finset.sum_div, div_self htne,
    Real.sqrt_one]

/-- Applying normalise twice is the same as applying it once. -/
lemma normalise_idem {n m : ℕ} (v : Matrix (Fin n) (Fin m) ℝ) :
    normalise (normalise v) = normalise v := by
  ext i j
  by_cases h : colNorm v j = 0
  · have hz : ∀ i', v i' j = 0 := (colNorm_eq_zero_iff v j).mp h
    have hcol : ∀ i', normalise v i' j = 0 := by
      intro i'
      rw [normalise_apply_of_colNorm_zero v h, hz i']
    have h2 : colNorm (normalise v) j = 0 := (colNorm_eq_zero_iff _ j).mpr hcol
    rw [normalise_apply_of_colNorm_zero _ h2]
  · have h1 : colNorm (normalise v) j = 1 := colNorm_normalise v h
    rw [normalise_apply, h1, if_neg one_ne_zero, div_one]

/-- Every column of zeromean v has zero column sum (hence zero mean). -/
lemma colSum_zeromean {n m : ℕ} (v : Matrix (Fin n) (Fin m) ℝ) (j : Fin m) :
    ∑ i, zeromean v i j = 0 := by
  unfold zeromean
  rcases Nat.eq_zero_or_pos n with hn | hn
  · subst hn
    simp
  · have hne : (n : ℝ) ≠ 0 := Nat.cast_ne_zero.mpr hn.ne'
    simp only [Matrix.of_apply, Finset.sum_sub_distrib, Finset.sum_const,
      Finset.card_univ, Fintype.card_fin, nsmul_eq_mul]
    field_simp

/-- zeromean is the identity on matrices whose columns already sum to zero. -/
lemma zeromean_of_colSum_zero {n m : ℕ} (v : Matrix (Fin n) (Fin m) ℝ)
    (h : ∀ j, ∑ i, v i j = 0) : zeromean v = v := by
  ext i j
  unfold zeromean
  rw [Matrix.of_apply, h j, zero_div, sub_zero]

/-- normalise preserves zero column sums: each column is rescaled by a
constant, which commutes with summation. -/
lemma colSum_normalise {n m : ℕ} (v : Matrix (Fin n) (Fin m) ℝ)
    (h : ∀ j, ∑ i, v i j = 0) (j : Fin m) : ∑ i, normalise v i j = 0 := by
  have hterm : ∀ i : Fin n, normalise v i j =
      v i j / (if colNorm v j = 0 then 1 else colNorm v j) := fun i => rfl
  rw [Finset.sum_congr rfl fun i _ => hterm i, ← Finset.sum_div, h j, zero_div]

/-- The projection returned by getPcn is idempotent for both settings of the
zero-mean flag. -/
lemma getPcn_idem {n m : ℕ} (zm : Bool) (v : Matrix (Fin n) (Fin m) ℝ) :
    getPcn zm (getPcn zm v) = getPcn zm v := by
  cases zm
  · show normalise (normalise v) = normalise v
    exact normalise_idem v
  · show normalise (zeromean (normalise (zeromean v))) = normalise (zeromean v)
    have hz : ∀ j, ∑ i, zeromean v i j = 0 := colSum_zeromean v
    have hz2 : ∀ j, ∑ i, normalise (zeromean v) i j = 0 := colSum_normalise _ hz
    rw [zeromean_of_colSum_zero _ hz2, normalise_idem]

/-- CMOD algorithm options (cmod.py lines 70-106).  AuxVarObj and ZeroMean
are the CMOD-specific flags; rho and Y0 are the inherited options used here
(rho is None when unset, in which case the constructor supplies a default);
fEvalX and gEvalY are the derived flags written by Options.__init__. -/
structure Options (N M : ℕ) where
  AuxVarObj : Bool
  ZeroMean : Bool
  rho : Option ℝ
  Y0 : Option (Matrix (Fin N) (Fin M) ℝ)
  fEvalX : Bool
  gEvalY : Bool

/-- Options.__init__ (cmod.py lines 91-106): fEvalX and gEvalY are coupled
to AuxVarObj, with fEvalX = not AuxVarObj and gEvalY = AuxVarObj. -/
def Options.make {N M : ℕ} (auxVarObj zeroMean : Bool) (rho : Option ℝ)
    (Y0 : Option (Matrix (Fin N) (Fin M) ℝ)) : Options N M :=
  { AuxVarObj := auxVarObj, ZeroMean := zeroMean, rho := rho, Y0 := Y0,
    fEvalX := !auxVarObj, gEvalY := auxVarObj }

/-- State of a CnstrMOD problem object (cmod.py class CnstrMOD).  N is the
signal dimension, M the number of dictionary atoms, K the number of signal
columns.  The cached factorization pair (lu, piv) is modelled by the single
field lu (see lu_factor below); AX is the relaxed primal estimate written by
the external ADMM engine and read by ystep. -/
structure CnstrMOD (N M K : ℕ) where
  opt : Options N M
  A : Matrix (Fin M) (Fin K) ℝ
  S : Matrix (Fin N) (Fin K) ℝ
  SAT : Matrix (Fin N) (Fin M) ℝ
  rho : ℝ
  lu : Matrix (Fin M) (Fin M) ℝ
  X : Matrix (Fin N) (Fin M) ℝ
  Y : Matrix (Fin N) (Fin M) ℝ
  U : Matrix (Fin N) (Fin M) ℝ
  AX : Matrix (Fin N) (Fin M) ℝ

/-- Modelled from the spec: sporco.linalg.lu_factor is code of this
repository not under src/.  Per spec §4.2 it builds a factorization of the
M×M system matrix A·Aᵗ + ρ·I; the abstract (lu, piv) pair is modelled as the
system matrix itself, against which solving is multiplication by the
inverse. -/
def lu_factor {M K : ℕ} (A : Matrix (Fin M) (Fin K) ℝ) (rho : ℝ) :
    Matrix (Fin M) (Fin M) ℝ :=
  A * Aᵀ + rho • 1

/-- Modelled from the spec: sporco.linalg.lu_solve_AATI is code of this
repository not under src/.  Per spec §4.2 it computes X such that
X·(A·Aᵗ+ρI) = B by solving against the cached factorization, numerically
equivalent to direct inversion; with the factorization modelled as the
system matrix itself this is B times its inverse.  The A and rho arguments
are carried to mirror the source signature. -/
noncomputable def lu_solve_AATI {N M K : ℕ} (A : Matrix (Fin M) (Fin K) ℝ)
    (rho : ℝ) (B : Matrix (Fin N) (Fin M) ℝ) (lu : Matrix (Fin M) (Fin M) ℝ) :
    Matrix (Fin N) (Fin M) ℝ :=
  B * lu⁻¹

namespace CnstrMOD

variable {N M K : ℕ}

/-- setcoef (cmod.py lines 176-183): store A, recompute SAT = S·Aᵗ, and
rebuild the cached factorization at the current rho. -/
noncomputable def setcoef (s : CnstrMOD N M K) (A : Matrix (Fin M) (Fin K) ℝ) :
    CnstrMOD N M K :=
  { s with A := A, SAT := s.S * Aᵀ, lu := lu_factor A s.rho }

/-- CnstrMOD.__init__ (cmod.py lines 116-159) for the case where A is
supplied: rho is taken from the options, defaulting to K/500 where K is the
number of signal columns (S.shape[1] / 500.0, line 144); the iterate fields
are initialised by the ADMM base class (Y from the Y0 option or zeros, X and
U zero) and setcoef is invoked to set A, SAT and the factorization. -/
noncomputable def init (A : Matrix (Fin M) (Fin K) ℝ)
    (S : Matrix (Fin N) (Fin K) ℝ) (opt : Options N M) : CnstrMOD N M K :=
  setcoef
    { opt := opt, A := A, S := S, SAT := S * Aᵀ,
      rho := opt.rho.getD ((K : ℝ) / 500),
      lu := 0, X := 0, Y := opt.Y0.getD 0, U := 0, AX := 0 } A

/-- uinit (cmod.py lines 163-172): zeros when no initial Y was supplied in
the options, and Y itself otherwise.  The ushape argument of the source
names the fixed shape N×M of the model. -/
def uinit (s : CnstrMOD N M K) : Matrix (Fin N) (Fin M) ℝ :=
  match s.opt.Y0 with
  | none => 0
  | some _ => s.Y

/-- getdict (cmod.py lines 187-190): the final dictionary is Y. -/
def getdict (s : CnstrMOD N M K) : Matrix (Fin N) (Fin M) ℝ :=
  s.Y

/-- xstep (cmod.py lines 194-199): X is recomputed by solving against the
cached factorization with right-hand side SAT + rho·(Y − U). -/
noncomputable def xstep (s : CnstrMOD N M K) : CnstrMOD N M K :=
  { s with X := lu_solve_AATI s.A s.rho (s.SAT + s.rho • (s.Y - s.U)) s.lu }

/-- ystep (cmod.py lines 203-206): Y is set to the constraint-set projection
of AX + U, with the projection function fixed at construction from the
ZeroMean option (line 150). -/
noncomputable def ystep (s : CnstrMOD N M K) : CnstrMOD N M K :=
  { s with Y := getPcn s.opt.ZeroMean (s.AX + s.U) }

/-- rhochange (cmod.py lines 239-243): rebuild the factorization from the
current A at the current rho; nothing else is touched. -/
def rhochange (s : CnstrMOD N M K) : CnstrMOD N M K :=
  { s with lu := lu_factor s.A s.rho }

/-- Modelled from the spec: admm.ADMMEqual.obfn_fvar, the base class that
resolves which of X or Y the data-fidelity term is evaluated on, is code of
this repository not under src/.  Per spec §4.3 it is X when fEvalX is set
and Y otherwise. -/
def obfn_fvar (s : CnstrMOD N M K) : Matrix (Fin N) (Fin M) ℝ :=
  if s.opt.fEvalX then s.X else s.Y

/-- Modelled from the spec: admm.ADMMEqual.obfn_gvar, the base class that
resolves which of X or Y the constraint term is evaluated on, is code of
this repository not under src/.  Per spec §4.3 it is Y when gEvalY is set
and X otherwise. -/
def obfn_gvar (s : CnstrMOD N M K) : Matrix (Fin N) (Fin M) ℝ :=
  if s.opt.gEvalY then s.Y else s.X

/-- obfn_dfd (cmod.py lines 221-226): the data fidelity term
(1/2)·‖fvar·A − S‖² in the Frobenius norm. -/
noncomputable def obfn_dfd (s : CnstrMOD N M K) : ℝ :=
  0.5 * frobNorm (obfn_fvar s * s.A - s.S) ^ 2

/-- obfn_cns (cmod.py lines 230-235): the constraint violation measure
‖Pcn(gvar) − gvar‖ in the Frobenius norm. -/
noncomputable def obfn_cns (s : CnstrMOD N M K) : ℝ :=
  frobNorm (getPcn s.opt.ZeroMean (obfn_gvar s) - obfn_gvar s)

/-- eval_objfn (cmod.py lines 210-217): the pair of the data fidelity term
and the constraint violation measure. -/
noncomputable def eval_objfn (s : CnstrMOD N M K) : ℝ × ℝ :=
  (obfn_dfd s, obfn_cns s)

end CnstrMOD

lemma frobNorm_zero {n m : ℕ} : frobNorm (0 : Matrix (Fin n) (Fin m) ℝ) = 0 := by
  unfold frobNorm
  simp

/-- For rho > 0 the system matrix A·Aᵗ + ρ·I is positive definite: A·Aᵗ is
positive semidefinite and ρ·I is positive definite. -/
lemma lu_factor_posDef {M K : ℕ} (A : Matrix (Fin M) (Fin K) ℝ) {rho : ℝ}
    (h : 0 < rho) : (lu_factor A rho).PosDef := by
  have hpsd : (A * Aᵀ).PosSemidef := by
    have h2 := Matrix.posSemidef_self_mul_conjTranspose A
    rwa [Matrix.conjTranspose_eq_transpose_of_trivial] at h2
  have hpd : (rho • (1 : Matrix (Fin M) (Fin M) ℝ)).PosDef := by
    rw [Matrix.smul_one_eq_diagonal]
    exact Matrix.PosDef.diagonal fun _ => h
  exact Matrix.PosDef.posSemidef_add hpsd hpd

lemma lu_factor_isUnit_det {M K : ℕ} (A : Matrix (Fin M) (Fin K) ℝ) {rho : ℝ}
    (h : 0 < rho) : IsUnit (lu_factor A rho).det :=
  (lu_factor_posDef A h).det_pos.ne'.isUnit

/-- Concrete 1×1 problem state used to instantiate the claim theorems. -/
noncomputable def sampleState : CnstrMOD 1 1 1 :=
  { opt := Options.make true false none none, A := 1, S := 1, SAT := 1,
    rho := 1, lu := lu_factor (1 : Matrix (Fin 1) (Fin 1) ℝ) 1,
    X := 0, Y := 0, U := 0, AX := 0 }

open CnstrMOD

/-- C1: with the cached factorization consistent with the current A and rho,
and rho positive, xstep sets X to the solution of the normal equations
X·(A·Aᵗ+ρI) = SAT + ρ·(Y−U), and this equals the result of direct inversion
of A·Aᵗ+ρI. -/
theorem xstep_solves_normal_equations {N M K : ℕ} (s : CnstrMOD N M K)
    (hlu : s.lu = lu_factor s.A s.rho) (hrho : 0 < s.rho) :
    (xstep s).X * (s.A * (s.A)ᵀ + s.rho • 1) = s.SAT + s.rho • (s.Y - s.U) ∧
    (xstep s).X = (s.SAT + s.rho • (s.Y - s.U)) * (s.A * (s.A)ᵀ + s.rho • 1)⁻¹ := by
  have hdet : IsUnit (lu_factor s.A s.rho).det := lu_factor_isUnit_det s.A hrho
  have h2 : (xstep s).X =
      (s.SAT + s.rho • (s.Y - s.U)) * (lu_factor s.A s.rho)⁻¹ := by
    unfold xstep lu_solve_AATI
    rw [hlu]
  have hg : (xstep s).X * lu_factor s.A s.rho = s.SAT + s.rho • (s.Y - s.U) := by
    rw [h2, Matrix.mul_assoc, Matrix.nonsing_inv_mul _ hdet, Matrix.mul_one]
  exact ⟨hg, h2⟩

/-- Witness for C1 at the concrete state sampleState. -/
theorem xstep_solves_normal_equations_witness :
    sampleState.lu = lu_factor sampleState.A sampleState.rho ∧
    (0 : ℝ) < sampleState.rho ∧
    ((xstep sampleState).X * (sampleState.A * (sampleState.A)ᵀ + sampleState.rho • 1) =
        sampleState.SAT + sampleState.rho • (sampleState.Y - sampleState.U) ∧
      (xstep sampleState).X = (sampleState.SAT + sampleState.rho •
        (sampleState.Y - sampleState.U)) *
        (sampleState.A * (sampleState.A)ᵀ + sampleState.rho • 1)⁻¹) :=
  ⟨rfl, one_pos, xstep_solves_normal_equations sampleState rfl one_pos⟩

/-- C2: after a ystep, getdict returns the auxiliary variable Y; every
column of the returned matrix has Euclidean norm 1, columns whose
pre-normalization input was identically zero remaining zero; when ZeroMean
is enabled the pre-normalization intermediate has zero column mean; and a
subsequent xstep or rhochange leaves the returned dictionary unchanged. -/
theorem getdict_after_ystep_feasible {N M K : ℕ} (s : CnstrMOD N M K) :
    getdict (ystep s) = (ystep s).Y ∧
    (∀ j, colNorm (getdict (ystep s)) j = 1 ∨
      ((∀ i, (if s.opt.ZeroMean then zeromean (s.AX + s.U) else s.AX + s.U) i j = 0) ∧
        ∀ i, getdict (ystep s) i j = 0)) ∧
    (s.opt.ZeroMean = true →
      ∀ j, (∑ i, zeromean (s.AX + s.U) i j) / (N : ℝ) = 0) ∧
    getdict (xstep (ystep s)) = getdict (ystep s) ∧
    getdict (rhochange (ystep s)) = getdict (ystep s) := by
  have hY : getdict (ystep s) =
      normalise (if s.opt.ZeroMean then zeromean (s.AX + s.U) else s.AX + s.U) := by
    cases h : s.opt.ZeroMean <;> simp [getdict, ystep, getPcn, h]
  refine ⟨rfl, ?_, ?_, rfl, rfl⟩
  · intro j
    by_cases hc :
        colNorm (if s.opt.ZeroMean then zeromean (s.AX + s.U) else s.AX + s.U) j = 0
    · refine Or.inr ⟨(colNorm_eq_zero_iff _ j).mp hc, fun i => ?_⟩
      rw [hY, normalise_apply_of_colNorm_zero _ hc, (colNorm_eq_zero_iff _ _).mp hc i]
    · exact Or.inl (by rw [hY]; exact colNorm_normalise _ hc)
  · intro _ j
    rw [colSum_zeromean, zero_div]

/-- Witness for C2 at the concrete state sampleState. -/
theorem getdict_after_ystep_feasible_witness :
    getdict (ystep sampleState) = (ystep sampleState).Y ∧
    (∀ j, colNorm (getdict (ystep sampleState)) j = 1 ∨
      ((∀ i, (if sampleState.opt.ZeroMean then
          zeromean (sampleState.AX + sampleState.U)
        else sampleState.AX + sampleState.U) i j = 0) ∧
        ∀ i, getdict (ystep sampleState) i j = 0)) ∧
    (sampleState.opt.ZeroMean = true →
      ∀ j, (∑ i, zeromean (sampleState.AX + sampleState.U) i j) / ((1 : ℕ) : ℝ) = 0) ∧
    getdict (xstep (ystep sampleState)) = getdict (ystep sampleState) ∧
    getdict (rhochange (ystep sampleState)) = getdict (ystep sampleState) :=
  getdict_after_ystep_feasible sampleState

/-- C3: setcoef stores the new coefficient matrix, establishes SAT = S·Aᵗ,
and rebuilds the cached factorization as the factorization of A·Aᵗ + ρI at
the current (unchanged) penalty parameter. -/
theorem setcoef_postcondition {N M K : ℕ} (s : CnstrMOD N M K)
    (A : Matrix (Fin M) (Fin K) ℝ) :
    (setcoef s A).SAT = s.S * Aᵀ ∧
    (setcoef s A).A = A ∧
    (setcoef s A).lu = lu_factor A s.rho ∧
    (setcoef s A).lu = A * Aᵀ + s.rho • 1 ∧
    (setcoef s A).rho = s.rho :=
  ⟨rfl, rfl, rfl, rfl, rfl⟩

/-- C4: rhochange rebuilds the cached factorization at the current rho from
the current A and leaves every other field of the problem object
unchanged. -/
theorem rhochange_refactorises_and_frames {N M K : ℕ} (s : CnstrMOD N M K) :
    (rhochange s).lu = lu_factor s.A s.rho ∧
    (rhochange s).lu = s.A * (s.A)ᵀ + s.rho • 1 ∧
    (rhochange s).A = s.A ∧
    (rhochange s).S = s.S ∧
    (rhochange s).SAT = s.SAT ∧
    (rhochange s).X = s.X ∧
    (rhochange s).Y = s.Y ∧
    (rhochange s).U = s.U ∧
    (rhochange s).AX = s.AX ∧
    (rhochange s).rho = s.rho ∧
    (rhochange s).opt = s.opt :=
  ⟨rfl, rfl, rfl, rfl, rfl, rfl, rfl, rfl, rfl, rfl, rfl⟩

/-- C5: for a matrix with at least one nonzero entry in a column, that
column of the projection without zero-mean has Euclidean norm 1; a column
that is identically zero is mapped to the identically-zero column. -/
theorem project_unit_norm_columns {n m : ℕ} (v : Matrix (Fin n) (Fin m) ℝ) :
    (∀ j, (∃ i, v i j ≠ 0) → colNorm (getPcn false v) j = 1) ∧
    (∀ j, (∀ i, v i j = 0) → ∀ i, getPcn false v i j = 0) := by
  constructor
  · intro j hj
    exact colNorm_normalise v (colNorm_ne_zero_of_entry v hj)
  · intro j hz i
    show normalise v i j = 0
    rw [normalise_apply_of_colNorm_zero v ((colNorm_eq_zero_iff v j).mpr hz), hz i]

/-- Witness for C5 on the 2×2 matrix with first column (3, 4) and second
column zero. -/
theorem project_unit_norm_columns_witness :
    (∃ i, (!![(3 : ℝ), 0; 4, 0]) i 0 ≠ 0) ∧
    colNorm (getPcn false !![(3 : ℝ), 0; 4, 0]) 0 = 1 ∧
    (∀ i, (!![(3 : ℝ), 0; 4, 0]) i 1 = 0) ∧
    (∀ i, getPcn false !![(3 : ℝ), 0; 4, 0] i 1 = 0) := by
  have h1 : ∃ i, (!![(3 : ℝ), 0; 4, 0]) i 0 ≠ 0 := ⟨0, by norm_num⟩
  have h2 : ∀ i, (!![(3 : ℝ), 0; 4, 0]) i 1 = 0 := by
    intro i
    fin_cases i <;> norm_num
  exact ⟨h1, (project_unit_norm_columns _).1 0 h1, h2,
    (project_unit_norm_columns _).2 1 h2⟩

/-- C6: the projection never divides by zero: on a column of norm exactly 0
the divisor is the substituted value 1, and the column is left as the zero
vector. -/
theorem normalise_total_on_zero_columns {n m : ℕ} (v : Matrix (Fin n) (Fin m) ℝ)
    (j : Fin m) (h : colNorm v j = 0) :
    (∀ i, normalise v i j = v i j / 1) ∧ (∀ i, normalise v i j = 0) := by
  constructor
  · intro i
    rw [normalise_apply, if_pos h]
  · intro i
    rw [normalise_apply_of_colNorm_zero v h, (colNorm_eq_zero_iff v j).mp h i]

/-- Witness for C6 on the 2×1 zero matrix. -/
theorem normalise_total_on_zero_columns_witness :
    colNorm (!![(0 : ℝ); 0]) 0 = 0 ∧
    ((∀ i, normalise !![(0 : ℝ); 0] i 0 = (!![(0 : ℝ); 0]) i 0 / 1) ∧
      (∀ i, normalise !![(0 : ℝ); 0] i 0 = 0)) := by
  have h : colNorm (!![(0 : ℝ); 0]) 0 = 0 := by
    simp [colNorm, Fin.sum_univ_two]
  exact ⟨h, normalise_total_on_zero_columns _ 0 h⟩

/-- C7: the constraint-set projection is idempotent for both settings of the
zero-mean flag: applying it twice equals applying it once. -/
theorem project_idempotent {n m : ℕ} (zm : Bool) (v : Matrix (Fin n) (Fin m) ℝ) :
    getPcn zm (getPcn zm v) = getPcn zm v :=
  getPcn_idem zm v

/-- C8: when the rho option is not set, construction uses the default
penalty parameter K/500, K being the number of signal columns. -/
theorem init_default_rho {N M K : ℕ} (A : Matrix (Fin M) (Fin K) ℝ)
    (S : Matrix (Fin N) (Fin K) ℝ) (opt : Options N M) (h : opt.rho = none) :
    (init A S opt).rho = (K : ℝ) / 500 := by
  show opt.rho.getD ((K : ℝ) / 500) = (K : ℝ) / 500
  rw [h, Option.getD_none]

/-- Witness for C8 on a concrete 1×1 problem with no rho option. -/
theorem init_default_rho_witness :
    (Options.make true false none none : Options 1 1).rho = none ∧
    (init (1 : Matrix (Fin 1) (Fin 1) ℝ) (1 : Matrix (Fin 1) (Fin 1) ℝ)
      (Options.make true false none none)).rho = ((1 : ℕ) : ℝ) / 500 :=
  ⟨rfl, init_default_rho 1 1 (Options.make true false none none) rfl⟩

/-- C9: uinit returns the zero matrix when no initial Y was supplied in the
options, and the current Y otherwise. -/
theorem uinit_cases {N M K : ℕ} (s : CnstrMOD N M K) :
    (s.opt.Y0 = none → uinit s = 0) ∧
    (∀ y, s.opt.Y0 = some y → uinit s = s.Y) := by
  constructor
  · intro h
    simp [uinit, h]
  · intro y h
    simp [uinit, h]

/-- Witness for C9 at the concrete state sampleState, whose Y0 option is
unset. -/
theorem uinit_cases_witness :
    sampleState.opt.Y0 = none ∧ uinit sampleState = 0 :=
  ⟨rfl, (uinit_cases sampleState).1 rfl⟩

/-- C10: with options built with AuxVarObj = true (the default), the
constraint term is evaluated on Y; when Y is the output of the projection
(as after any ystep) the constraint-violation component of eval_objfn is
exactly zero, by idempotence of the projection. -/
theorem eval_objfn_cns_zero_after_ystep {N M K : ℕ} (s : CnstrMOD N M K)
    (zm : Bool) (r : Option ℝ) (y0 : Option (Matrix (Fin N) (Fin M) ℝ))
    (W : Matrix (Fin N) (Fin M) ℝ)
    (hopt : s.opt = Options.make true zm r y0)
    (hY : s.Y = getPcn zm W) :
    obfn_cns s = 0 ∧ (eval_objfn s).2 = 0 := by
  have hg : obfn_gvar s = s.Y := by
    unfold obfn_gvar
    rw [hopt]
    simp [Options.make]
  have hzm : s.opt.ZeroMean = zm := by
    rw [hopt]
    rfl
  have hz : getPcn s.opt.ZeroMean (obfn_gvar s) - obfn_gvar s = 0 := by
    rw [hg, hY, hzm, getPcn_idem, sub_self]
  have hc : obfn_cns s = 0 := by
    unfold obfn_cns
    rw [hz, frobNorm_zero]
  exact ⟨hc, hc⟩

/-- Witness for C10 at the state reached from sampleState by one ystep. -/
theorem eval_objfn_cns_zero_after_ystep_witness :
    (ystep sampleState).opt = (Options.make true false none none : Options 1 1) ∧
    (ystep sampleState).Y = getPcn false (sampleState.AX + sampleState.U) ∧
    (obfn_cns (ystep sampleState) = 0 ∧ (eval_objfn (ystep sampleState)).2 = 0) :=
  ⟨rfl, rfl, eval_objfn_cns_zero_after_ystep (ystep sampleState) false none none
    (sampleState.AX + sampleState.U) rfl rfl⟩

end Cmod
